import Mathlib

/-!
Verification of the GitHub issue and solution extractor
(src/anup/github_extractor.py) against its specification.

Texts are modelled as lists of characters.  Python regular-expression
scans (re.findall, re.search) are modelled by explicit left-to-right
scanners that mirror the matching behaviour of the concrete patterns
used in the source; Python str.split, str.strip and int() are modelled
by explicit functions; list(set(..)) is modelled by List.dedup (the
source's iteration order over a Python set is unspecified, and every
statement about candidate iteration is quantified over the order).
-/

namespace GHX

/-- Whitespace characters matched by the regex class used in the source
patterns (the ASCII part of Python's backslash-s). -/
def isSpaceChar (c : Char) : Bool :=
  c = ' ' || c = '\t' || c = '\n' || c = '\r' || c = '\x0b' || c = '\x0c'

/-- Word characters for the word-boundary assertion of Python regexes:
alphanumerics and underscore. -/
def isWordChar (c : Char) : Bool :=
  c.isAlphanum || c = '_'

/-- True when the list starts with a decimal digit. -/
def headDigit : List Char → Bool
  | [] => false
  | c :: _ => c.isDigit

/-- Numeric value of a pure digit string, as computed by Python int()
on a string of decimal digits. -/
def digitsVal (d : List Char) : Nat :=
  d.foldl (fun a c => a * 10 + (c.toNat - 48)) 0

/-- Decimal rendering of a natural number, as produced by Python
str(issue_number) and by the f-string interpolations in the source. -/
def numStr (n : Nat) : List Char :=
  (toString n).toList

/-- Substring containment, modelling the Python operator in for strings:
some contiguous run of l equals pat. -/
def hasSub (pat : List Char) : List Char → Bool
  | [] => pat.isEmpty
  | c :: cs => pat.isPrefixOf (c :: cs) || hasSub pat cs

/-- Case-insensitive prefix test: the first characters of l, lowered,
equal kw (kw is given already lowercased).  Models how the IGNORECASE
regex flag treats the literal keyword parts of the source patterns. -/
def ciStarts (kw l : List Char) : Bool :=
  (l.take kw.length).map Char.toLower == kw

theorem bool_not_true {b : Bool} (h : (!b) = true) : b = false := by
  cases b
  · rfl
  · exact Bool.noConfusion h

/-- Dropping a nonempty all-digit run shortens the list. -/
theorem length_dropWhile_lt {p : Char → Bool} {l : List Char}
    (h : l.takeWhile p ≠ []) : (l.dropWhile p).length < l.length := by
  cases l with
  | nil => simp at h
  | cons x xs =>
    by_cases hx : p x
    · rw [List.dropWhile_cons_of_pos hx]
      exact Nat.lt_succ_of_le (List.dropWhile_sublist p).length_le
    · rw [List.takeWhile_cons_of_neg hx] at h
      exact absurd rfl h

/-! ### Pattern 1 of extract_pr_references: hashtag references

The source scans the text with the regex hash-sign followed by one or
more digits, capturing the digits.  re.findall walks left to right,
takes the maximal digit run at each match and resumes after it. -/

/-- Scanner for the hashtag pattern.  The second argument counts the
characters of the previous match still to be skipped, so the recursion
is structural on the text while reproducing the resume-after-match
behaviour of re.findall. -/
def hashScanAux : List Char → Nat → List (List Char)
  | [], _ => []
  | _ :: cs, Nat.succ k => hashScanAux cs k
  | c :: cs, 0 =>
    if c = '#' && !(cs.takeWhile Char.isDigit).isEmpty then
      cs.takeWhile Char.isDigit :: hashScanAux cs (cs.takeWhile Char.isDigit).length
    else hashScanAux cs 0

/-- All digit groups captured by the hashtag pattern, in scan order. -/
def hashScan (l : List Char) : List (List Char) :=
  hashScanAux l 0

/-! ### Pattern 2 of extract_pr_references: full PR URLs -/

/-- The literal pattern prefix for full PR URLs of the same repository:
the GitHub host, the escaped owner and repo, and the pull segment.
re.escape makes owner and repo match literally. -/
def urlPat (o r : List Char) : List Char :=
  ("https://github.com/").toList ++ o ++ [ '/' ] ++ r ++ ("/pull/").toList

/-- Scanner for the full-URL pattern with a skip counter, as in
hashScanAux: an occurrence of the literal pattern followed by one or
more digits is a match, the scan resumes after the digits, otherwise it
advances one character. -/
def urlScanAux (P : List Char) : List Char → Nat → List (List Char)
  | [], _ => []
  | _ :: cs, Nat.succ k => urlScanAux P cs k
  | c :: cs, 0 =>
    if P.isPrefixOf (c :: cs) &&
        !(((c :: cs).drop P.length).takeWhile Char.isDigit).isEmpty then
      ((c :: cs).drop P.length).takeWhile Char.isDigit ::
        urlScanAux P cs
          (P.length + (((c :: cs).drop P.length).takeWhile Char.isDigit).length - 1)
    else urlScanAux P cs 0

/-- All digit groups captured by the full-URL pattern, in scan order. -/
def urlScan (o r l : List Char) : List (List Char) :=
  urlScanAux (urlPat o r) l 0

/-! ### Pattern 3 of extract_pr_references: closing-keyword references

The regex is a closing verb (close, fix with a mandatory e, or resolve,
each with an optional trailing s), then one or more whitespace
characters, then a hash sign and one or more captured digits, with the
IGNORECASE flag.  At a given start position the match is deterministic:
dropping the optional s leaves the letter s where whitespace is
required, so at most one keyword alternative can complete, and greedy
whitespace followed by the hash sign admits a single split. -/

/-- The keyword alternatives of the closing pattern, in the order the
regex alternation tries them. -/
def kwAlts : List (List Char) :=
  [("closes").toList, ("close").toList, ("fixes").toList, ("fixe").toList,
   ("resolves").toList, ("resolve").toList]

/-- After a keyword: require one or more whitespace characters, then a
hash sign, then one or more digits; return the captured maximal digit
run and the remainder of the text after the match. -/
def matchAfterKw (xs : List Char) : Option (List Char × List Char) :=
  if (xs.takeWhile isSpaceChar).isEmpty then none
  else
    match xs.dropWhile isSpaceChar with
    | [] => none
    | x :: r2 =>
      if x = '#' then
        if (r2.takeWhile Char.isDigit).isEmpty then none
        else some (r2.takeWhile Char.isDigit, r2.dropWhile Char.isDigit)
      else none

/-- Attempt one keyword alternative at the current position. -/
def tryKw (kw l : List Char) : Option (List Char × List Char) :=
  if ciStarts kw l then matchAfterKw (l.drop kw.length) else none

/-- Attempt the closing pattern at the current position, trying the
keyword alternatives in regex order. -/
def tryClosingAt (l : List Char) : Option (List Char × List Char) :=
  kwAlts.findSome? (fun kw => tryKw kw l)

theorem matchAfterKw_length_lt {xs d r : List Char}
    (h : matchAfterKw xs = some (d, r)) : r.length < xs.length := by
  unfold matchAfterKw at h
  by_cases he : (xs.takeWhile isSpaceChar).isEmpty
  · simp [he] at h
  · rw [if_neg he] at h
    cases hd : xs.dropWhile isSpaceChar with
    | nil => rw [hd] at h; exact absurd h (by simp)
    | cons x r2 =>
      rw [hd] at h
      replace h : (if x = '#' then
          if (r2.takeWhile Char.isDigit).isEmpty then none
          else some (r2.takeWhile Char.isDigit, r2.dropWhile Char.isDigit)
        else none) = some (d, r) := h
      by_cases hx : x = '#'
      · rw [if_pos hx] at h
        by_cases hdd : (r2.takeWhile Char.isDigit).isEmpty
        · simp [hdd] at h
        · rw [if_neg hdd] at h
          simp only [Option.some.injEq, Prod.mk.injEq] at h
          have h1 : r.length ≤ r2.length := by
            rw [← h.2]
            exact (List.dropWhile_sublist _).length_le
          have h2 : (xs.dropWhile isSpaceChar).length < xs.length := by
            refine length_dropWhile_lt ?_
            simpa [List.isEmpty_iff] using he
          rw [hd] at h2
          simp only [List.length_cons] at h2
          omega
      · exact absurd h (by simp [hx])

theorem tryKw_length_lt {kw l d r : List Char} (h : tryKw kw l = some (d, r)) :
    r.length < l.length := by
  unfold tryKw at h
  by_cases hc : ciStarts kw l
  · rw [if_pos hc] at h
    have h1 := matchAfterKw_length_lt h
    have h2 : (l.drop kw.length).length ≤ l.length := by
      rw [List.length_drop]; omega
    omega
  · simp [hc] at h

theorem tryClosingAt_length_lt {l d r : List Char}
    (h : tryClosingAt l = some (d, r)) : r.length < l.length := by
  unfold tryClosingAt at h
  obtain ⟨kw, _, hk⟩ := List.exists_of_findSome?_eq_some h
  exact tryKw_length_lt hk

/-- Scanner for the closing-keyword pattern with a skip counter, as in
hashScanAux: on a match the scan resumes at the remainder returned by
tryClosingAt, otherwise it advances one character. -/
def closingScanAux : List Char → Nat → List (List Char)
  | [], _ => []
  | _ :: cs, Nat.succ k => closingScanAux cs k
  | c :: cs, 0 =>
    match tryClosingAt (c :: cs) with
    | some (d, r) => d :: closingScanAux cs ((c :: cs).length - r.length - 1)
    | none => closingScanAux cs 0

/-- All digit groups captured by the closing-keyword pattern, in scan
order. -/
def closingScan (l : List Char) : List (List Char) :=
  closingScanAux l 0

/-! ### extract_pr_references -/

/-- Embedding of extract_pr_references: the three patterns applied to
the text, the captured digit groups converted by int(), concatenated in
source order and deduplicated (list(set(..)) in the source, modelled by
List.dedup; the resulting order is unspecified in the source and no
claim depends on it). -/
def extract_pr_references (t o r : List Char) : List Nat :=
  ((hashScan t).map digitsVal ++ (urlScan o r t).map digitsVal ++
    (closingScan t).map digitsVal).dedup

/-! ### The strong-match search of find_solving_pr

The source checks a candidate PR body with re.search for a closing verb,
whitespace, then a hash sign, the literal issue number and a word
boundary, under IGNORECASE. -/

/-- Word-boundary test after the literal issue number: end of text or a
non-word character. -/
def boundaryOk : List Char → Bool
  | [] => true
  | c :: _ => !isWordChar c

/-- After a keyword: one or more whitespace characters, the hash sign,
the literal digits nd of the issue number, and a word boundary. -/
def afterKwStrong (nd xs : List Char) : Bool :=
  !(xs.takeWhile isSpaceChar).isEmpty &&
    (match xs.dropWhile isSpaceChar with
     | [] => false
     | x :: r2 => x = '#' && nd.isPrefixOf r2 && boundaryOk (r2.drop nd.length))

/-- The anchored closing pattern matched at the current position:
some keyword alternative is a case-insensitive prefix and the anchored
remainder follows it. -/
def matchStrongAt (nd l : List Char) : Bool :=
  kwAlts.any (fun kw => ciStarts kw l && afterKwStrong nd (l.drop kw.length))

/-- re.search of the anchored closing pattern: a match at some position
of the body. -/
def strongSearch (nd : List Char) : List Char → Bool
  | [] => false
  | c :: cs => matchStrongAt nd (c :: cs) || strongSearch nd cs

/-- A PR body is a strong match for issue n when the anchored closing
pattern is found in it. -/
def strongBody (n : Nat) (b : List Char) : Bool :=
  strongSearch (numStr n) b

/-- The eligibility test of find_solving_pr: the body contains the
hashtag form of the issue number or its bare decimal string. -/
def eligibleBody (n : Nat) (b : List Char) : Bool :=
  hasSub ('#' :: numStr n) b || hasSub (numStr n) b

/-! ### PR records and the selection loop of find_solving_pr -/

/-- The fields of a fetched PR record consulted by find_solving_pr.
The state field holds the raw state string of the API response; merged
is the merged flag; body is the optional description (a missing body
key and a null body both appear as none, matching the source's
pr.get with a default of the empty string followed by or). -/
structure PR where
  number : Nat
  state : List Char
  merged : Bool
  body : Option (List Char)
deriving DecidableEq

/-- The body text used by the selection loop: the body, or the empty
string when absent. -/
def prText (pr : PR) : List Char :=
  pr.body.getD []

/-- The survival test of the loop: the fetched record is present,
closed and merged. -/
def prAlive (pr : PR) : Bool :=
  pr.state == ("closed").toList && pr.merged

/-- The selection loop of find_solving_pr over the deduplicated
candidate list, with the running weak-match accumulator solving_pr.
A strong match returns immediately (break); an eligible PR is stored
only when no candidate was stored before (elif not solving_pr). -/
def selLoop (n : Nat) (fetch : Nat → Option PR) (acc : Option PR) :
    List Nat → Option PR
  | [] => acc
  | c :: cs =>
    match fetch c with
    | none => selLoop n fetch acc cs
    | some pr =>
      if prAlive pr then
        if eligibleBody n (prText pr) then
          if strongBody n (prText pr) then some pr
          else
            match acc with
            | none => selLoop n fetch (some pr) cs
            | some a => selLoop n fetch (some a) cs
        else selLoop n fetch acc cs
      else selLoop n fetch acc cs

/-- The selection phase of find_solving_pr (the spec's select_best):
run the loop over the candidate list with an empty accumulator. -/
def select_best (n : Nat) (fetch : Nat → Option PR) (cands : List Nat) :
    Option PR :=
  selLoop n fetch none cands

/-- The sequence of candidate numbers for which the loop issues a fetch
before finishing: every candidate up to and including the strong match
that breaks the loop, or all of them when no strong match occurs. -/
def selectCalls (n : Nat) (fetch : Nat → Option PR) : List Nat → List Nat
  | [] => []
  | c :: cs =>
    c ::
      (match fetch c with
       | none => selectCalls n fetch cs
       | some pr =>
         if prAlive pr then
           if eligibleBody n (prText pr) then
             if strongBody n (prText pr) then []
             else selectCalls n fetch cs
           else selectCalls n fetch cs
         else selectCalls n fetch cs)

/-- A candidate whose fetched record survives the loop's filters and
whose body passes the eligibility test. -/
def candEligible (n : Nat) (fetch : Nat → Option PR) (c : Nat) : Bool :=
  match fetch c with
  | none => false
  | some pr => prAlive pr && eligibleBody n (prText pr)

/-- A candidate that the loop would return immediately as a strong
match. -/
def candStrong (n : Nat) (fetch : Nat → Option PR) (c : Nat) : Bool :=
  match fetch c with
  | none => false
  | some pr => prAlive pr && eligibleBody n (prText pr) && strongBody n (prText pr)

/-! ### The HTTP layer

Each wrapper of the source receives one HTTP response; a response is
modelled by its status code and (for a 200) its decoded payload. -/

/-- An HTTP response: status code and decoded JSON payload.  The
payload field is only consulted on a 200 status, as in the source. -/
structure HttpResp (α : Type) where
  status : Nat
  data : α

/-- The fields of the fetched issue consulted by find_solving_pr. -/
structure Issue where
  state : List Char
  body : Option (List Char)
deriving DecidableEq

/-- The exceptions raised by get_issue: a dedicated message for 404,
a generic failure for any other non-200 status. -/
inductive GHError where
  | notFound (issueNumber : Int)
  | apiFailed (status : Nat)
deriving DecidableEq

/-- Embedding of get_issue: raises on 404 and on any other non-200
status, returns the payload on 200. -/
def get_issue (n : Int) (resp : HttpResp Issue) : Except GHError Issue :=
  if resp.status = 404 then Except.error (GHError.notFound n)
  else if resp.status ≠ 200 then Except.error (GHError.apiFailed resp.status)
  else Except.ok resp.data

/-- Embedding of get_issue_events: the payload on 200, the empty list
on any other status.  The element type is irrelevant to the control
flow and is kept abstract. -/
def get_issue_events {α : Type} (resp : HttpResp (List α)) : List α :=
  if resp.status = 200 then resp.data else []

/-- Embedding of get_pr: the payload on 200, the empty falsy record
(modelled as none) on any other status. -/
def get_pr (resp : HttpResp PR) : Option PR :=
  if resp.status = 200 then some resp.data else none

/-- A page stops the comment pagination loop when its status is not 200
or it carries no items. -/
def pageStops {α : Type} (resp : HttpResp (List α)) : Bool :=
  resp.status != 200 || resp.data.isEmpty

/-- Embedding of the while-true pagination loop of get_issue_comments.
pages maps a page number (starting from 1) to its response; the fuel
argument bounds the number of iterations, and none models a loop that
has not finished within the given fuel.  A non-200 page or an empty
page breaks the loop; otherwise the items are collected and the page
number is incremented. -/
def get_issue_comments {α : Type} (pages : Nat → HttpResp (List α)) :
    Nat → Nat → Option (List α)
  | 0, _ => none
  | Nat.succ f, p =>
    if (pages p).status ≠ 200 then some []
    else if (pages p).data.isEmpty then some []
    else (get_issue_comments pages f (p + 1)).map (fun rest => (pages p).data ++ rest)

/-! ### parse_github_url

The identifier parser uses Python str.split, str.strip, int() and
urllib.parse.urlparse; these library functions are modelled below.
Every exception escaping the parser (the explicit ValueError for an
unrecognised shape, a failed int() conversion, or a failed tuple
unpacking of str.split) is modelled by the single error value, since
the caller only distinguishes success from failure. -/

instance {ε α : Type} [DecidableEq ε] [DecidableEq α] : DecidableEq (Except ε α) :=
  fun a b =>
    match a, b with
    | Except.error e, Except.error f =>
      if h : e = f then isTrue (by rw [h]) else isFalse (by intro hc; injection hc; contradiction)
    | Except.ok x, Except.ok y =>
      if h : x = y then isTrue (by rw [h]) else isFalse (by intro hc; injection hc; contradiction)
    | Except.error _, Except.ok _ => isFalse (by intro hc; exact Except.noConfusion hc)
    | Except.ok _, Except.error _ => isFalse (by intro hc; exact Except.noConfusion hc)

/-- Python str digit parsing with underscore grouping: one or more
decimal digits where each underscore is surrounded by digits. -/
def pyDigitsAux : List Char → Bool
  | [] => false
  | [c] => c.isDigit
  | c :: r1 :: rest2 =>
    c.isDigit && (if r1 = '_' then pyDigitsAux rest2 else pyDigitsAux (r1 :: rest2))

/-- Strip leading and trailing whitespace, as Python int() does before
parsing. -/
def pyStripWs (l : List Char) : List Char :=
  ((l.dropWhile isSpaceChar).reverse.dropWhile isSpaceChar).reverse

/-- Modelled from Python int() on strings: optional surrounding
whitespace, an optional sign, then digits with optional underscore
grouping; none models a ValueError.  Non-ASCII digits and non-ASCII
whitespace accepted by CPython are outside the model. -/
def pyIntL (s : List Char) : Option Int :=
  match pyStripWs s with
  | '+' :: rest =>
    if pyDigitsAux rest then some (Int.ofNat (digitsVal (rest.filter Char.isDigit)))
    else none
  | '-' :: rest =>
    if pyDigitsAux rest then some (-(Int.ofNat (digitsVal (rest.filter Char.isDigit))))
    else none
  | t => if pyDigitsAux t then some (Int.ofNat (digitsVal (t.filter Char.isDigit))) else none

/-- A valid URL scheme for urlparse: nonempty, a letter first, then
letters, digits, plus, minus or dot. -/
def schemeValid (s : List Char) : Bool :=
  !s.isEmpty && headAlpha s && s.all (fun c => c.isAlphanum || c = '+' || c = '-' || c = '.')
where
  headAlpha : List Char → Bool
    | [] => false
    | c :: _ => c.isAlpha

/-- Remove a valid scheme and its colon, as urlparse does. -/
def dropScheme (u : List Char) : List Char :=
  if u.contains ':' && schemeValid (u.takeWhile (fun c => c != ':')) then
    (u.dropWhile (fun c => c != ':')).drop 1
  else u

/-- Remove the network location after a double slash, as urlparse does:
the netloc extends to the next slash, question mark or hash sign, which
stays at the head of the path. -/
def dropNetloc (u : List Char) : List Char :=
  match u with
  | '/' :: '/' :: rest => rest.dropWhile (fun c => c != '/' && c != '?' && c != '#')
  | _ => u

/-- Modelled from urllib.parse.urlparse: the path component of the
parsed URL, with the fragment and query removed. -/
def urlparse_path (u : List Char) : List Char :=
  ((dropNetloc (dropScheme u)).takeWhile (fun c => c != '#')).takeWhile (fun c => c != '?')

/-- Python str.strip with a slash argument: remove leading and trailing
slashes. -/
def stripSlashes (l : List Char) : List Char :=
  ((l.dropWhile (fun c => c = '/')).reverse.dropWhile (fun c => c = '/')).reverse

/-- Embedding of parse_github_url.  The URL branch parses the path of a
URL starting with http and requires at least four path segments with
issues third; the plain branch requires exactly one hash sign preceded
by an owner-slash-repo part with exactly one slash (str.split tuple
unpacking raises on any other count).  Any failure path collapses to
the single error value. -/
def parse_github_url (url : List Char) : Except Unit (List Char × List Char × Int) :=
  if ("http").toList.isPrefixOf url then
    let parts := (stripSlashes (urlparse_path url)).splitOn '/'
    if 4 ≤ parts.length && parts.getD 2 [] == ("issues").toList then
      match pyIntL (parts.getD 3 []) with
      | some n => Except.ok (parts.getD 0 [], parts.getD 1 [], n)
      | none => Except.error ()
    else Except.error ()
  else
    if url.contains '#' then
      if url.count '#' = 1 then
        if (url.takeWhile (fun c => c != '#')).contains '/' then
          if (url.takeWhile (fun c => c != '#')).count '/' = 1 then
            match pyIntL ((url.dropWhile (fun c => c != '#')).drop 1) with
            | some n =>
              Except.ok
                ((url.takeWhile (fun c => c != '#')).takeWhile (fun c => c != '/'),
                 (((url.takeWhile (fun c => c != '#')).dropWhile (fun c => c != '/')).drop 1,
                  n))
            | none => Except.error ()
          else Except.error ()
        else Except.error ()
      else Except.error ()
    else Except.error ()

/-! ### print_issue_and_solution and main -/

/-- The observable outcome of print_issue_and_solution: an error report
(its try-except catches every exception and prints it), a solution
report, or the no-solution report. -/
inductive ReportOutcome where
  | errorReport (e : GHError)
  | solved (pr : PR)
  | noSolution
deriving DecidableEq

/-- Embedding of print_issue_and_solution: fetch the issue (an
exception is caught and reported), run find_solving_pr (which fetches
the same issue again from the same environment), and report its result.
The search argument is the value of the selection phase over the
collected candidates. -/
def print_issue_and_solution (n : Int) (issueResp : HttpResp Issue)
    (search : Option PR) : ReportOutcome :=
  match get_issue n issueResp with
  | Except.error e => ReportOutcome.errorReport e
  | Except.ok _ =>
    match get_issue n issueResp with
    | Except.error e => ReportOutcome.errorReport e
    | Except.ok _ =>
      match search with
      | some pr => ReportOutcome.solved pr
      | none => ReportOutcome.noSolution

/-- Embedding of main: parse the identifier (an exception yields exit
code 1), otherwise run the report, whose outcome is printed and
discarded, and return exit code 0.  print_issue_and_solution never
raises, so every run with a parseable identifier returns 0. -/
def main_run (ident : List Char) (issueResp : HttpResp Issue)
    (search : Option PR) : Nat :=
  match parse_github_url ident with
  | Except.error _ => 1
  | Except.ok t =>
    let _ := print_issue_and_solution t.2.2 issueResp search
    0

/-! ### Helper lemmas about substring containment -/

theorem hasSub_iff {pat l : List Char} :
    hasSub pat l = true ↔ ∃ s, s <:+ l ∧ pat <+: s := by
  induction l with
  | nil =>
    simp only [hasSub, List.isEmpty_iff]
    constructor
    · rintro rfl
      exact ⟨[], List.suffix_rfl, List.prefix_rfl⟩
    · rintro ⟨s, hs, hp⟩
      have : s = [] := List.eq_nil_of_suffix_nil hs
      subst this
      exact List.prefix_nil.mp hp
  | cons c cs ih =>
    simp only [hasSub, Bool.or_eq_true, List.isPrefixOf_iff_prefix, ih]
    constructor
    · rintro (hp | ⟨s, hs, hp⟩)
      · exact ⟨c :: cs, List.suffix_rfl, hp⟩
      · exact ⟨s, hs.trans (List.suffix_cons c cs), hp⟩
    · rintro ⟨s, hs, hp⟩
      rcases List.suffix_cons_iff.mp hs with rfl | hs
      · exact Or.inl hp
      · exact Or.inr ⟨s, hs, hp⟩

theorem hasSub_of_pre_suffix {pat s l : List Char} (hp : pat <+: s)
    (hs : s <:+ l) : hasSub pat l = true :=
  hasSub_iff.mpr ⟨s, hs, hp⟩

theorem hasSub_tail {x : Char} {pat b : List Char}
    (h : hasSub (x :: pat) b = true) : hasSub pat b = true := by
  obtain ⟨s, hs, hp⟩ := hasSub_iff.mp h
  obtain ⟨t, ht⟩ := hp
  subst ht
  refine hasSub_of_pre_suffix ⟨t, rfl⟩ (List.IsSuffix.trans ?_ hs)
  exact List.suffix_cons x (pat ++ t)

/-- The eligibility disjunction collapses to its second disjunct: a body
containing the hashtag form also contains the bare decimal string. -/
theorem eligibleBody_eq_hasSub (n : Nat) (b : List Char) :
    eligibleBody n b = hasSub (numStr n) b := by
  unfold eligibleBody
  cases hb : hasSub (numStr n) b with
  | true => simp [hb]
  | false =>
    simp only [hb, Bool.or_false]
    cases hh : hasSub ('#' :: numStr n) b with
    | false => rfl
    | true => rw [hasSub_tail hh] at hb; exact hb

/-! ### Helper lemmas about the strong-match search -/

theorem strongSearch_suffix {nd b : List Char} (h : strongSearch nd b = true) :
    ∃ s, s <:+ b ∧ matchStrongAt nd s = true := by
  induction b with
  | nil => simp [strongSearch] at h
  | cons c cs ih =>
    rw [strongSearch, Bool.or_eq_true] at h
    rcases h with h | h
    · exact ⟨c :: cs, List.suffix_rfl, h⟩
    · obtain ⟨s, hs, hm⟩ := ih h
      exact ⟨s, hs.trans (List.suffix_cons c cs), hm⟩

theorem matchStrongAt_sub {nd l : List Char} (h : matchStrongAt nd l = true) :
    ∃ s, s <:+ l ∧ ('#' :: nd) <+: s := by
  rw [matchStrongAt, List.any_eq_true] at h
  obtain ⟨kw, _, hk⟩ := h
  rw [Bool.and_eq_true] at hk
  obtain ⟨-, ha⟩ := hk
  rw [afterKwStrong, Bool.and_eq_true] at ha
  obtain ⟨-, ha⟩ := ha
  cases hd : (l.drop kw.length).dropWhile isSpaceChar with
  | nil => rw [hd] at ha; exact absurd ha (by simp)
  | cons x r2 =>
    rw [hd] at ha
    replace ha : (decide (x = '#') && nd.isPrefixOf r2 && boundaryOk (r2.drop nd.length)) = true := ha
    simp only [Bool.and_eq_true, decide_eq_true_eq, List.isPrefixOf_iff_prefix] at ha
    obtain ⟨⟨rfl, hpre⟩, -⟩ := ha
    refine ⟨'#' :: r2, ?_, ?_⟩
    · rw [← hd]
      exact (List.dropWhile_suffix _).trans (List.drop_suffix _ _)
    · obtain ⟨t, ht⟩ := hpre
      exact ⟨t, by rw [List.cons_append, ht]⟩

/-- A strong match implies eligibility: the anchored pattern contains
the hashtag form of the issue number. -/
theorem strongBody_eligible {n : Nat} {b : List Char}
    (h : strongBody n b = true) : eligibleBody n b = true := by
  obtain ⟨s, hs, hm⟩ := strongSearch_suffix h
  obtain ⟨s2, hs2, hp⟩ := matchStrongAt_sub hm
  unfold eligibleBody
  rw [hasSub_of_pre_suffix hp (hs2.trans hs)]
  simp

/-! ### Helper lemmas about the selection loop -/

theorem selLoop_ineligible_cons {n : Nat} {fetch : Nat → Option PR} {c : Nat}
    (hc : candEligible n fetch c = false) (acc : Option PR) (cs : List Nat) :
    selLoop n fetch acc (c :: cs) = selLoop n fetch acc cs := by
  cases hf : fetch c with
  | none => simp [selLoop, hf]
  | some pr =>
    simp only [candEligible, hf] at hc
    simp only [selLoop, hf]
    cases ha : prAlive pr with
    | false => simp [ha]
    | true =>
      rw [ha] at hc
      simp only [Bool.true_and] at hc
      simp [ha, hc]

theorem selLoop_skip_pre {n : Nat} {fetch : Nat → Option PR} {pre : List Nat}
    (hpre : ∀ x ∈ pre, candEligible n fetch x = false) (acc : Option PR)
    (rest : List Nat) :
    selLoop n fetch acc (pre ++ rest) = selLoop n fetch acc rest := by
  induction pre with
  | nil => rfl
  | cons p pre ih =>
    rw [List.cons_append,
      selLoop_ineligible_cons (hpre p (List.mem_cons_self p pre)) acc (pre ++ rest)]
    exact ih (fun x hx => hpre x (List.mem_cons_of_mem p hx))

theorem selLoop_keep {n : Nat} {fetch : Nat → Option PR} {cs : List Nat}
    (hcs : ∀ x ∈ cs, candStrong n fetch x = false) (a : PR) :
    selLoop n fetch (some a) cs = some a := by
  induction cs with
  | nil => rfl
  | cons c cs ih =>
    have ihc := ih (fun x hx => hcs x (List.mem_cons_of_mem c hx))
    have hc := hcs c (List.mem_cons_self c cs)
    cases hf : fetch c with
    | none => simp only [selLoop, hf]; exact ihc
    | some pr =>
      simp only [candStrong, hf] at hc
      simp only [selLoop, hf]
      cases ha : prAlive pr with
      | false => simp only [ha, Bool.false_eq_true, if_false]; exact ihc
      | true =>
        rw [ha] at hc
        cases he : eligibleBody n (prText pr) with
        | false =>
          simp only [ha, he, if_true, Bool.false_eq_true, if_false]
          exact ihc
        | true =>
          rw [he] at hc
          simp only [Bool.true_and] at hc
          simp only [ha, he, hc, if_true, Bool.false_eq_true, if_false]
          exact ihc

theorem selLoop_strong_hit {n : Nat} {fetch : Nat → Option PR} {c : Nat} {pr : PR}
    (hf : fetch c = some pr) (ha : prAlive pr = true)
    (hs : strongBody n (prText pr) = true) (acc : Option PR) (cs : List Nat) :
    selLoop n fetch acc (c :: cs) = some pr := by
  simp only [selLoop, hf, ha, strongBody_eligible hs, hs, if_true]

theorem selectCalls_ineligible_cons {n : Nat} {fetch : Nat → Option PR} {c : Nat}
    (hc : candEligible n fetch c = false) (cs : List Nat) :
    selectCalls n fetch (c :: cs) = c :: selectCalls n fetch cs := by
  cases hf : fetch c with
  | none => simp [selectCalls, hf]
  | some pr =>
    simp only [candEligible, hf] at hc
    simp only [selectCalls, hf]
    cases ha : prAlive pr with
    | false => simp [ha]
    | true =>
      rw [ha] at hc
      simp only [Bool.true_and] at hc
      simp [ha, hc]

theorem selectCalls_pre {n : Nat} {fetch : Nat → Option PR} {pre : List Nat}
    (hpre : ∀ x ∈ pre, candEligible n fetch x = false) (rest : List Nat) :
    selectCalls n fetch (pre ++ rest) = pre ++ selectCalls n fetch rest := by
  induction pre with
  | nil => rfl
  | cons p pre ih =>
    rw [List.cons_append,
      selectCalls_ineligible_cons (hpre p (List.mem_cons_self p pre)) (pre ++ rest),
      ih (fun x hx => hpre x (List.mem_cons_of_mem p hx)), List.cons_append]

theorem selectCalls_strong_head {n : Nat} {fetch : Nat → Option PR} {c : Nat} {pr : PR}
    (hf : fetch c = some pr) (ha : prAlive pr = true)
    (hs : strongBody n (prText pr) = true) (cs : List Nat) :
    selectCalls n fetch (c :: cs) = [c] := by
  simp only [selectCalls, hf, ha, strongBody_eligible hs, hs, if_true]

theorem selectCalls_isPre (n : Nat) (fetch : Nat → Option PR) :
    ∀ l : List Nat, selectCalls n fetch l <+: l
  | [] => List.prefix_rfl
  | c :: cs => by
    rw [selectCalls]
    cases hf : fetch c with
    | none =>
      obtain ⟨t, ht⟩ := selectCalls_isPre n fetch cs
      exact ⟨t, by rw [List.cons_append, ht]⟩
    | some pr =>
      by_cases hstop : prAlive pr = true ∧ eligibleBody n (prText pr) = true ∧
          strongBody n (prText pr) = true
      · simp only [hstop.1, hstop.2.1, hstop.2.2, if_true]
        exact ⟨cs, rfl⟩
      · obtain ⟨t, ht⟩ := selectCalls_isPre n fetch cs
        refine ⟨t, ?_⟩
        cases ha : prAlive pr with
        | false => simp only [ha, Bool.false_eq_true, if_false, List.cons_append, ht]
        | true =>
          cases he : eligibleBody n (prText pr) with
          | false =>
            simp only [ha, he, if_true, Bool.false_eq_true, if_false, List.cons_append, ht]
          | true =>
            cases hs : strongBody n (prText pr) with
            | false =>
              simp only [ha, he, hs, if_true, Bool.false_eq_true, if_false,
                List.cons_append, ht]
            | true => exact absurd ⟨ha, he, hs⟩ hstop

theorem candEligible_false_of {n : Nat} {fetch : Nat → Option PR} {x : Nat}
    (h : ∀ pr, fetch x = some pr →
      pr.merged = false ∨ pr.state ≠ ("closed").toList ∨
        hasSub (numStr n) (prText pr) = false) :
    candEligible n fetch x = false := by
  cases hf : fetch x with
  | none => simp [candEligible, hf]
  | some pr =>
    simp only [candEligible, hf]
    rcases h pr hf with hm | hs | hb
    · simp [prAlive, hm]
    · have hst : (pr.state == ("closed").toList) = false := beq_eq_false_iff_ne.mpr hs
      have hal : prAlive pr = false := by unfold prAlive; rw [hst]; rfl
      simp [hal]
    · rw [eligibleBody_eq_hasSub, hb]
      simp

/-! ### Concrete records used by the witnesses -/

/-- A merged, closed PR whose body is a strong match for issue 42. -/
def prStrong : PR :=
  ⟨99, ("closed").toList, true, some (("Closes #42").toList)⟩

/-- An open, unmerged PR (ineligible even though its body mentions the
issue). -/
def prOpen : PR :=
  ⟨7, ("open").toList, false, some (("#42").toList)⟩

/-- A merged, closed PR whose body mentions issue 42 without a closing
keyword (a weak match only). -/
def prWeak : PR :=
  ⟨88, ("closed").toList, true, some (("Related to 42").toList)⟩

/-- A fetch environment with a strong match at 99 and an ineligible
record at 7; every other number is absent. -/
def exFetch : Nat → Option PR :=
  fun c => if c = 99 then some prStrong else if c = 7 then some prOpen else none

/-- A fetch environment with a weak match at 88 and an ineligible
record at 7; every other number is absent. -/
def exFetchW : Nat → Option PR :=
  fun c => if c = 88 then some prWeak else if c = 7 then some prOpen else none

/-! ### Claim theorems -/

/-- C1: for every issue number, fetch environment and candidate
iteration order, if a fetched candidate PR is closed and merged and its
body matches the closing-keyword pattern anchored to the issue number,
and the candidates before it are ineligible, then select_best returns
that PR (a strong match), and the loop fetches exactly the candidates
up to and including it, short-circuiting the rest (which are entirely
unconstrained, so in particular arbitrarily many ineligible candidates
may follow). -/
theorem C1_strong_match_short_circuits
    (n : Nat) (fetch : Nat → Option PR) (pre post : List Nat) (c : Nat) (pr : PR)
    (hpre : ∀ x ∈ pre, candEligible n fetch x = false)
    (hf : fetch c = some pr) (ha : prAlive pr = true)
    (hs : strongBody n (prText pr) = true) :
    select_best n fetch (pre ++ c :: post) = some pr ∧
    selectCalls n fetch (pre ++ c :: post) = pre ++ [c] := by
  constructor
  · rw [select_best, selLoop_skip_pre hpre, selLoop_strong_hit hf ha hs]
  · rw [selectCalls_pre hpre, selectCalls_strong_head hf ha hs]

theorem C1_witness :
    (∀ x ∈ [5, 7], candEligible 42 exFetch x = false) ∧
    exFetch 99 = some prStrong ∧ prAlive prStrong = true ∧
    strongBody 42 (prText prStrong) = true ∧
    select_best 42 exFetch [5, 7, 99, 3] = some prStrong ∧
    selectCalls 42 exFetch [5, 7, 99, 3] = [5, 7, 99] := by
  refine ⟨by decide, by decide, by decide, by decide, ?_⟩
  exact C1_strong_match_short_circuits 42 exFetch [5, 7] [3] 99 prStrong
    (by decide) (by decide) (by decide) (by decide)

/-- C2: for every issue number and fetch environment, when no fetched
candidate is a strong match, select_best returns the first eligible
candidate in iteration order (the weak match); and when no candidate is
eligible — in particular when every fetched PR is unmerged, not closed,
or has a body lacking the bare decimal string of the issue number (and
hence also its hashtag form) — select_best returns none. -/
theorem C2_weak_match_or_none (n : Nat) (fetch : Nat → Option PR) :
    (∀ (pre post : List Nat) (c : Nat) (pr : PR),
      (∀ x ∈ pre ++ c :: post, candStrong n fetch x = false) →
      (∀ x ∈ pre, candEligible n fetch x = false) →
      fetch c = some pr → prAlive pr = true → eligibleBody n (prText pr) = true →
      select_best n fetch (pre ++ c :: post) = some pr) ∧
    (∀ cands : List Nat,
      (∀ x ∈ cands, ∀ pr, fetch x = some pr →
        pr.merged = false ∨ pr.state ≠ ("closed").toList ∨
          hasSub (numStr n) (prText pr) = false) →
      select_best n fetch cands = none) := by
  constructor
  · intro pre post c pr hns hpre hf ha he
    rw [select_best, selLoop_skip_pre hpre]
    have hcs : candStrong n fetch c = false := by
      have := hns c (by simp)
      exact this
    have hsb : strongBody n (prText pr) = false := by
      simp only [candStrong, hf, ha, he, Bool.true_and] at hcs
      exact hcs
    simp only [selLoop, hf, ha, he, hsb, Bool.false_eq_true, if_false, if_true]
    exact selLoop_keep
      (fun x hx => hns x (by simp only [List.mem_append, List.mem_cons]; right; right; exact hx))
      pr
  · intro cands h
    have hall : ∀ x ∈ cands, candEligible n fetch x = false :=
      fun x hx => candEligible_false_of (h x hx)
    have := selLoop_skip_pre hall none []
    simpa [select_best] using this

theorem C2_witness :
    select_best 42 exFetchW [7, 88, 5] = some prWeak ∧
    select_best 42 exFetchW [7, 5] = none := by
  constructor
  · exact (C2_weak_match_or_none 42 exFetchW).1 [7] [5] 88 prWeak
      (by decide) (by decide) (by decide) (by decide) (by decide)
  · refine (C2_weak_match_or_none 42 exFetchW).2 [7, 5] ?_
    intro x hx pr hpr
    rcases List.mem_cons.mp hx with rfl | hx
    · rw [show exFetchW 7 = some prOpen from rfl] at hpr
      injection hpr with h
      subst h
      left
      rfl
    · rcases List.mem_cons.mp hx with rfl | hx
      · rw [show exFetchW 5 = none from rfl] at hpr
        exact absurd hpr (by simp)
      · simp at hx

/-- C7: the candidate collection handed to the fetch loop is always
deduplicated, so no two fetch calls of a single run target the same
candidate number, and each text extraction itself returns a
duplicate-free list.  The first part quantifies over every raw
candidate list a run can collect (issue body, comments and events
combined), since the source deduplicates with list(set(..)) right
before the loop; the fetch calls are the selectCalls trace of the
loop. -/
theorem C7_fetch_calls_nodup :
    (∀ t o r : List Char, (extract_pr_references t o r).Nodup) ∧
    (∀ (n : Nat) (fetch : Nat → Option PR) (raw : List Nat),
      (selectCalls n fetch raw.dedup).Nodup) := by
  constructor
  · intro t o r
    exact List.nodup_dedup _
  · intro n fetch raw
    exact List.Nodup.sublist (selectCalls_isPre n fetch raw.dedup).sublist
      (List.nodup_dedup raw)

/-- C10: the first disjunct of the eligibility test is redundant — a
body containing the hashtag form of the issue number also contains its
bare decimal string — so eligibility coincides with bare-substring
containment; in particular a body mentioning the number only inside a
longer number is eligible. -/
theorem C10_eligibility_bare_substring :
    (∀ (n : Nat) (b : List Char),
      hasSub ('#' :: numStr n) b = true → hasSub (numStr n) b = true) ∧
    (∀ (n : Nat) (b : List Char), eligibleBody n b = hasSub (numStr n) b) ∧
    eligibleBody 42 (("Only mentioned inside 1429").toList) = true := by
  exact ⟨fun n b h => hasSub_tail h, eligibleBody_eq_hasSub, by decide⟩

theorem C10_witness :
    hasSub ('#' :: numStr 42) (("see #42").toList) = true ∧
    hasSub (numStr 42) (("see #42").toList) = true := by
  refine ⟨by decide, ?_⟩
  exact C10_eligibility_bare_substring.1 42 (("see #42").toList) (by decide)

/-! ### Characterization of the scanners -/

theorem headDigit_dropWhile (l : List Char) :
    headDigit (l.dropWhile Char.isDigit) = false := by
  have h := List.head?_dropWhile_not Char.isDigit l
  cases hd : l.dropWhile Char.isDigit with
  | nil => rfl
  | cons x t =>
    rw [hd] at h
    simpa [headDigit] using h

theorem takeWhile_isEmpty_eq_headDigit (l : List Char) :
    (l.takeWhile Char.isDigit).isEmpty = !headDigit l := by
  cases l with
  | nil => rfl
  | cons c cs =>
    rw [List.takeWhile_cons]
    cases hc : c.isDigit with
    | true => simp [headDigit, hc]
    | false => simp [headDigit, hc]

theorem dropLengthTakeWhile (p : Char → Bool) : ∀ l : List Char,
    l.drop (l.takeWhile p).length = l.dropWhile p
  | [] => rfl
  | c :: cs => by
    rw [List.takeWhile_cons, List.dropWhile_cons]
    cases hc : p c with
    | true =>
      simp only [if_true]
      rw [List.length_cons, List.drop_succ_cons]
      exact dropLengthTakeWhile p cs
    | false => simp

theorem takeDigits_append {d b : List Char} (hdig : d.all Char.isDigit = true)
    (hb : headDigit b = false) :
    (d ++ b).takeWhile Char.isDigit = d ∧ (d ++ b).dropWhile Char.isDigit = b := by
  induction d with
  | nil =>
    cases b with
    | nil => exact ⟨rfl, rfl⟩
    | cons x t =>
      simp only [headDigit] at hb
      simp [List.takeWhile_cons, List.dropWhile_cons, hb]
  | cons a d ih =>
    simp only [List.all_cons, Bool.and_eq_true] at hdig
    have := ih hdig.2
    simp [List.takeWhile_cons, List.dropWhile_cons, hdig.1, this.1, this.2]

theorem suffix_past_all {p : Char → Bool} {x : Char} {t : List Char}
    (hx : p x = false) :
    ∀ (d0 r : List Char), (x :: t) <:+ (d0 ++ r) →
      (∀ a ∈ d0, p a = true) → (x :: t) <:+ r := by
  intro d0
  induction d0 with
  | nil => intro r h _; simpa using h
  | cons a d0 ih =>
    intro r h hall
    rw [List.cons_append] at h
    rcases List.suffix_cons_iff.mp h with heq | h2
    · have hax : a = x := by injection heq with h1 _; exact h1.symm
      have hpa := hall a (List.mem_cons_self a d0)
      subst hax
      rw [hpa] at hx
      exact Bool.noConfusion hx
    · exact ih r h2 (fun a ha => hall a (List.mem_cons_of_mem _ ha))

theorem hashScanAux_skip :
    ∀ (l : List Char) (k : Nat), hashScanAux l k = hashScanAux (l.drop k) 0
  | [], k => by simp [hashScanAux]
  | c :: cs, 0 => rfl
  | c :: cs, Nat.succ k => by
    rw [show hashScanAux (c :: cs) (Nat.succ k) = hashScanAux cs k from rfl,
      hashScanAux_skip cs k, List.drop_succ_cons]

theorem hashScanAux_cons_pos {c : Char} {cs : List Char} (hc : c = '#')
    (hne : (cs.takeWhile Char.isDigit).isEmpty = false) :
    hashScanAux (c :: cs) 0 =
      cs.takeWhile Char.isDigit :: hashScanAux (cs.dropWhile Char.isDigit) 0 := by
  rw [show hashScanAux (c :: cs) 0 =
      (if c = '#' && !(cs.takeWhile Char.isDigit).isEmpty then
        cs.takeWhile Char.isDigit :: hashScanAux cs (cs.takeWhile Char.isDigit).length
      else hashScanAux cs 0) from rfl]
  simp only [hc, decide_True, hne, Bool.not_false, Bool.and_self, if_true]
  rw [hashScanAux_skip cs (cs.takeWhile Char.isDigit).length, dropLengthTakeWhile]

theorem hashScanAux_cons_neg {c : Char} {cs : List Char}
    (h : (c = '#' && !(cs.takeWhile Char.isDigit).isEmpty) = false) :
    hashScanAux (c :: cs) 0 = hashScanAux cs 0 := by
  rw [show hashScanAux (c :: cs) 0 =
      (if c = '#' && !(cs.takeWhile Char.isDigit).isEmpty then
        cs.takeWhile Char.isDigit :: hashScanAux cs (cs.takeWhile Char.isDigit).length
      else hashScanAux cs 0) from rfl]
  rw [h]
  rfl

/-- Completeness of the hashtag scan: every occurrence of a hash sign
followed by a maximal nonempty digit run is captured. -/
theorem hashScan_complete_aux :
    ∀ (N : Nat) (l : List Char), l.length ≤ N → ∀ (d b : List Char),
      ('#' :: (d ++ b)) <:+ l → d ≠ [] → d.all Char.isDigit = true →
      headDigit b = false → d ∈ hashScanAux l 0 := by
  intro N
  induction N with
  | zero =>
    intro l hl d b hsuf _ _ _
    have hnil : l = [] := List.length_eq_zero.mp (Nat.le_zero.mp hl)
    subst hnil
    have := List.eq_nil_of_suffix_nil hsuf
    simp at this
  | succ N ih =>
    intro l hl d b hsuf hd hdig hb
    cases l with
    | nil =>
      have := List.eq_nil_of_suffix_nil hsuf
      simp at this
    | cons c cs =>
      have hlcs : cs.length ≤ N := by simpa using hl
      rcases List.suffix_cons_iff.mp hsuf with heq | hsuf2
      · injection heq with h1 h2
        obtain ⟨htw0, -⟩ := takeDigits_append hdig hb
        have htw : cs.takeWhile Char.isDigit = d := by rw [← h2]; exact htw0
        have hne : (cs.takeWhile Char.isDigit).isEmpty = false := by
          rw [htw]
          cases d with
          | nil => exact absurd rfl hd
          | cons x xs => rfl
        rw [hashScanAux_cons_pos h1.symm hne, htw]
        exact List.mem_cons_self d _
      · by_cases hcp : (c = '#' && !(cs.takeWhile Char.isDigit).isEmpty) = true
        · rw [Bool.and_eq_true, decide_eq_true_eq, Bool.not_eq_true'] at hcp
          rw [hashScanAux_cons_pos hcp.1 hcp.2]
          refine List.mem_cons_of_mem _ ?_
          have hall : ∀ a ∈ cs.takeWhile Char.isDigit, Char.isDigit a = true :=
            fun a ha => List.mem_takeWhile_imp ha
          have hsufr : ('#' :: (d ++ b)) <:+ cs.dropWhile Char.isDigit := by
            refine suffix_past_all (by decide) _ _ ?_ hall
            rw [List.takeWhile_append_dropWhile]
            exact hsuf2
          refine ih (cs.dropWhile Char.isDigit) ?_ d b hsufr hd hdig hb
          exact le_trans (List.dropWhile_sublist _).length_le hlcs
        · rw [hashScanAux_cons_neg (Bool.eq_false_iff.mpr hcp)]
          exact ih cs hlcs d b hsuf2 hd hdig hb

/-- Soundness of the hashtag scan: every captured group arises from an
occurrence of a hash sign followed by a maximal nonempty digit run. -/
theorem hashScan_sound_aux :
    ∀ (N : Nat) (l : List Char), l.length ≤ N → ∀ d ∈ hashScanAux l 0,
      ∃ b, ('#' :: (d ++ b)) <:+ l ∧ d ≠ [] ∧ d.all Char.isDigit = true ∧
        headDigit b = false := by
  intro N
  induction N with
  | zero =>
    intro l hl d hdm
    have hnil : l = [] := List.length_eq_zero.mp (Nat.le_zero.mp hl)
    subst hnil
    simp [hashScanAux] at hdm
  | succ N ih =>
    intro l hl d hdm
    cases l with
    | nil => simp [hashScanAux] at hdm
    | cons c cs =>
      have hlcs : cs.length ≤ N := by simpa using hl
      by_cases hcp : (c = '#' && !(cs.takeWhile Char.isDigit).isEmpty) = true
      · rw [Bool.and_eq_true, decide_eq_true_eq, Bool.not_eq_true'] at hcp
        rw [hashScanAux_cons_pos hcp.1 hcp.2] at hdm
        rcases List.mem_cons.mp hdm with rfl | hdm2
        · refine ⟨cs.dropWhile Char.isDigit, ?_, ?_, ?_, headDigit_dropWhile cs⟩
          · rw [List.takeWhile_append_dropWhile, hcp.1]
          · intro hnil
            rw [hnil] at hcp
            exact absurd hcp.2 (by simp)
          · exact List.all_eq_true.mpr (fun x hx => List.mem_takeWhile_imp hx)
        · obtain ⟨b, hs, hd2, hdig, hb⟩ := ih (cs.dropWhile Char.isDigit)
            (le_trans (List.dropWhile_sublist _).length_le hlcs) d hdm2
          exact ⟨b, (hs.trans (List.dropWhile_suffix _)).trans (List.suffix_cons c cs),
            hd2, hdig, hb⟩
      · rw [hashScanAux_cons_neg (Bool.eq_false_iff.mpr hcp)] at hdm
        obtain ⟨b, hs, hd2, hdig, hb⟩ := ih cs hlcs d hdm
        exact ⟨b, hs.trans (List.suffix_cons c cs), hd2, hdig, hb⟩

/-! ### Characterization of the closing-keyword scan -/

theorem matchAfterKw_spec {xs d r : List Char} (h : matchAfterKw xs = some (d, r)) :
    ('#' :: (d ++ r)) <:+ xs ∧ d ≠ [] ∧ d.all Char.isDigit = true ∧
      headDigit r = false := by
  unfold matchAfterKw at h
  by_cases he : (xs.takeWhile isSpaceChar).isEmpty
  · simp [he] at h
  · rw [if_neg he] at h
    cases hd : xs.dropWhile isSpaceChar with
    | nil => rw [hd] at h; exact absurd h (by simp)
    | cons x r2 =>
      rw [hd] at h
      replace h : (if x = '#' then
          if (r2.takeWhile Char.isDigit).isEmpty then none
          else some (r2.takeWhile Char.isDigit, r2.dropWhile Char.isDigit)
        else none) = some (d, r) := h
      by_cases hx : x = '#'
      · rw [if_pos hx] at h
        by_cases hdd : (r2.takeWhile Char.isDigit).isEmpty
        · simp [hdd] at h
        · rw [if_neg hdd] at h
          simp only [Option.some.injEq, Prod.mk.injEq] at h
          obtain ⟨hdq, hrq⟩ := h
          subst hdq
          subst hrq
          subst hx
          refine ⟨?_, ?_, ?_, headDigit_dropWhile r2⟩
          · rw [List.takeWhile_append_dropWhile]
            exact hd ▸ List.dropWhile_suffix isSpaceChar
          · intro hnil
            rw [hnil] at hdd
            exact hdd rfl
          · exact List.all_eq_true.mpr (fun a ha => List.mem_takeWhile_imp ha)
      · rw [if_neg hx] at h
        exact absurd h (by simp)

theorem tryClosingAt_spec {l d r : List Char} (h : tryClosingAt l = some (d, r)) :
    ('#' :: (d ++ r)) <:+ l ∧ d ≠ [] ∧ d.all Char.isDigit = true ∧
      headDigit r = false := by
  unfold tryClosingAt at h
  obtain ⟨kw, -, hk⟩ := List.exists_of_findSome?_eq_some h
  unfold tryKw at hk
  by_cases hc : ciStarts kw l
  · rw [if_pos hc] at hk
    obtain ⟨hs, hd, hdig, hb⟩ := matchAfterKw_spec hk
    exact ⟨hs.trans (List.drop_suffix kw.length l), hd, hdig, hb⟩
  · rw [if_neg hc] at hk
    exact absurd hk (by simp)

theorem suffix_drop_eq {r cs : List Char} (h : r <:+ cs) :
    cs.drop (cs.length - r.length) = r := by
  obtain ⟨t, ht⟩ := h
  subst ht
  rw [List.length_append, Nat.add_sub_cancel]
  exact List.drop_left t r

theorem closingScanAux_skip :
    ∀ (l : List Char) (k : Nat), closingScanAux l k = closingScanAux (l.drop k) 0
  | [], k => by simp [closingScanAux]
  | c :: cs, 0 => rfl
  | c :: cs, Nat.succ k => by
    rw [show closingScanAux (c :: cs) (Nat.succ k) = closingScanAux cs k from rfl,
      closingScanAux_skip cs k, List.drop_succ_cons]

theorem closingScanAux_cons_some {c : Char} {cs d0 r : List Char}
    (h : tryClosingAt (c :: cs) = some (d0, r)) :
    closingScanAux (c :: cs) 0 = d0 :: closingScanAux r 0 := by
  have hlt : r.length < (c :: cs).length := tryClosingAt_length_lt h
  obtain ⟨hs, -, -, -⟩ := tryClosingAt_spec h
  have hsfx : r <:+ (c :: cs) :=
    ((List.suffix_append d0 r).trans (List.suffix_cons '#' (d0 ++ r))).trans hs
  have hr : r <:+ cs := by
    rcases List.suffix_cons_iff.mp hsfx with heq | h2
    · rw [heq] at hlt
      exact absurd hlt (Nat.lt_irrefl _)
    · exact h2
  rw [show closingScanAux (c :: cs) 0 =
      (match tryClosingAt (c :: cs) with
       | some (d, r) => d :: closingScanAux cs ((c :: cs).length - r.length - 1)
       | none => closingScanAux cs 0) from rfl, h]
  have harith : (c :: cs).length - r.length - 1 = cs.length - r.length := by
    simp only [List.length_cons]
    have : r.length ≤ cs.length := hr.length_le
    omega
  show d0 :: closingScanAux cs ((c :: cs).length - r.length - 1) = d0 :: closingScanAux r 0
  rw [harith, closingScanAux_skip cs (cs.length - r.length), suffix_drop_eq hr]

theorem closingScanAux_cons_none {c : Char} {cs : List Char}
    (h : tryClosingAt (c :: cs) = none) :
    closingScanAux (c :: cs) 0 = closingScanAux cs 0 := by
  rw [show closingScanAux (c :: cs) 0 =
      (match tryClosingAt (c :: cs) with
       | some (d, r) => d :: closingScanAux cs ((c :: cs).length - r.length - 1)
       | none => closingScanAux cs 0) from rfl, h]

/-- Soundness of the closing-keyword scan: every captured group arises
from a hash sign followed by a maximal nonempty digit run (preceded by
a keyword and whitespace, which the statement does not need). -/
theorem closingScan_sound_aux :
    ∀ (N : Nat) (l : List Char), l.length ≤ N → ∀ d ∈ closingScanAux l 0,
      ∃ b, ('#' :: (d ++ b)) <:+ l ∧ d ≠ [] ∧ d.all Char.isDigit = true ∧
        headDigit b = false := by
  intro N
  induction N with
  | zero =>
    intro l hl d hdm
    have hnil : l = [] := List.length_eq_zero.mp (Nat.le_zero.mp hl)
    subst hnil
    simp [closingScanAux] at hdm
  | succ N ih =>
    intro l hl d hdm
    cases l with
    | nil => simp [closingScanAux] at hdm
    | cons c cs =>
      cases htc : tryClosingAt (c :: cs) with
      | some p =>
        obtain ⟨d0, r⟩ := p
        rw [closingScanAux_cons_some htc] at hdm
        obtain ⟨hs, hd0, hdig, hb⟩ := tryClosingAt_spec htc
        rcases List.mem_cons.mp hdm with rfl | hdm2
        · exact ⟨r, hs, hd0, hdig, hb⟩
        · have hrlen : r.length ≤ N := by
            have := tryClosingAt_length_lt htc
            have hls : (c :: cs).length ≤ N + 1 := hl
            omega
          obtain ⟨b, hsb, hd2, hdig2, hb2⟩ := ih r hrlen d hdm2
          have hrsuf : r <:+ (c :: cs) :=
            ((List.suffix_append d0 r).trans
              (List.suffix_cons '#' (d0 ++ r))).trans hs
          exact ⟨b, hsb.trans hrsuf, hd2, hdig2, hb2⟩
      | none =>
        rw [closingScanAux_cons_none htc] at hdm
        have hlcs : cs.length ≤ N := by simpa using hl
        obtain ⟨b, hsb, hd2, hdig2, hb2⟩ := ih cs hlcs d hdm
        exact ⟨b, hsb.trans (List.suffix_cons c cs), hd2, hdig2, hb2⟩

/-! ### Absence of pattern occurrences -/

/-- Some position of the text starts with the literal pattern P
immediately followed by a decimal digit. -/
def occursPatDigit (P : List Char) : List Char → Bool
  | [] => false
  | c :: cs =>
    (P.isPrefixOf (c :: cs) && headDigit ((c :: cs).drop P.length)) ||
      occursPatDigit P cs

/-- Formalization of the hypothesis of the claim about empty
extraction: the text contains no digit immediately following a hash
sign, nor immediately following fix, close or resolve (the keyword
comparison being case-insensitive, as in the source patterns). -/
def noTriggerDigits (t : List Char) : Bool :=
  !(occursPatDigit [ '#' ] t ||
    occursPatDigit (("fix").toList) (t.map Char.toLower) ||
    occursPatDigit (("close").toList) (t.map Char.toLower) ||
    occursPatDigit (("resolve").toList) (t.map Char.toLower))

theorem occurs_of_suffix {P : List Char} :
    ∀ {l s : List Char}, s <:+ l → P.isPrefixOf s = true →
      headDigit (s.drop P.length) = true → occursPatDigit P l = true := by
  intro l
  induction l with
  | nil =>
    intro s hs hp hd
    have : s = [] := List.eq_nil_of_suffix_nil hs
    subst this
    rw [List.drop_nil] at hd
    exact Bool.noConfusion hd
  | cons c cs ih =>
    intro s hs hp hd
    rw [occursPatDigit, Bool.or_eq_true]
    rcases List.suffix_cons_iff.mp hs with rfl | h2
    · exact Or.inl (by rw [hp, hd]; rfl)
    · exact Or.inr (ih h2 hp hd)

theorem hashScanAux_nil_of_no_hash :
    ∀ {l : List Char}, occursPatDigit [ '#' ] l = false → hashScanAux l 0 = [] := by
  intro l
  induction l with
  | nil => intro _; rfl
  | cons c cs ih =>
    intro h
    rw [occursPatDigit, Bool.or_eq_false_iff] at h
    obtain ⟨h1, h2⟩ := h
    have hcond : (c = '#' && !(cs.takeWhile Char.isDigit).isEmpty) = false := by
      rw [takeWhile_isEmpty_eq_headDigit, Bool.not_not]
      cases hc : decide (c = '#') with
      | false => rfl
      | true =>
        have hceq : c = '#' := of_decide_eq_true hc
        have hpre : ([ '#' ] : List Char).isPrefixOf (c :: cs) = true := by
          rw [hceq]
          exact List.isPrefixOf_iff_prefix.mpr ⟨cs, rfl⟩
        rw [hpre] at h1
        simp only [Bool.true_and] at h1
        rw [Bool.true_and]
        simpa using h1
    rw [hashScanAux_cons_neg hcond]
    exact ih h2

theorem closingScanAux_nil_of_no_hash :
    ∀ {l : List Char}, occursPatDigit [ '#' ] l = false → closingScanAux l 0 = [] := by
  intro l
  induction l with
  | nil => intro _; rfl
  | cons c cs ih =>
    intro h
    cases htc : tryClosingAt (c :: cs) with
    | some p =>
      obtain ⟨d0, r⟩ := p
      obtain ⟨hs, hd0, hdig, -⟩ := tryClosingAt_spec htc
      cases d0 with
      | nil => exact absurd rfl hd0
      | cons x d0t =>
        have hxdig : Char.isDigit x = true :=
          List.all_eq_true.mp hdig x (List.mem_cons_self x d0t)
        have hocc : occursPatDigit [ '#' ] (c :: cs) = true := by
          refine occurs_of_suffix hs ?_ ?_
          · exact List.isPrefixOf_iff_prefix.mpr ⟨(x :: d0t) ++ r, rfl⟩
          · simpa [headDigit] using hxdig
        rw [hocc] at h
        exact Bool.noConfusion h
    | none =>
      rw [closingScanAux_cons_none htc]
      rw [occursPatDigit, Bool.or_eq_false_iff] at h
      exact ih h.2

theorem urlScanAux_cons_neg {P : List Char} {c : Char} {cs : List Char}
    (h : (P.isPrefixOf (c :: cs) &&
      !(((c :: cs).drop P.length).takeWhile Char.isDigit).isEmpty) = false) :
    urlScanAux P (c :: cs) 0 = urlScanAux P cs 0 := by
  rw [show urlScanAux P (c :: cs) 0 =
      (if P.isPrefixOf (c :: cs) &&
          !(((c :: cs).drop P.length).takeWhile Char.isDigit).isEmpty then
        ((c :: cs).drop P.length).takeWhile Char.isDigit ::
          urlScanAux P cs
            (P.length + (((c :: cs).drop P.length).takeWhile Char.isDigit).length - 1)
      else urlScanAux P cs 0) from rfl]
  rw [h]
  rfl

theorem urlScanAux_nil_of_no_occurs {P : List Char} :
    ∀ {l : List Char}, occursPatDigit P l = false → urlScanAux P l 0 = [] := by
  intro l
  induction l with
  | nil => intro _; rfl
  | cons c cs ih =>
    intro h
    rw [occursPatDigit, Bool.or_eq_false_iff] at h
    obtain ⟨h1, h2⟩ := h
    have hcond : (P.isPrefixOf (c :: cs) &&
        !(((c :: cs).drop P.length).takeWhile Char.isDigit).isEmpty) = false := by
      rw [takeWhile_isEmpty_eq_headDigit, Bool.not_not]
      exact h1
    rw [urlScanAux_cons_neg hcond]
    exact ih h2

/-! ### C3 and C9 -/

/-- The running example text of the URL-pattern counterexample: a bare
PR URL of the same repository, containing no hash sign and no closing
keyword at all. -/
def urlOnlyText : List Char :=
  ("https://github.com/o/r/pull/5").toList

/-- C3 counterexample: a text with no digits after a hash sign, fix,
close or resolve for which extract_pr_references is nonetheless
nonempty, because the full-URL pattern contributes the trailing digits
of a PR URL. -/
theorem C3_counterexample :
    noTriggerDigits urlOnlyText = true ∧
    extract_pr_references urlOnlyText (("o").toList) (("r").toList) = [5] := by
  constructor
  · decide
  · decide

/-- C3 amended: if the text additionally contains no occurrence of the
full PR-URL pattern of the given repository followed by a digit, the
extraction is empty. -/
theorem C3_amended_no_refs (t o r : List Char)
    (h1 : noTriggerDigits t = true)
    (h2 : occursPatDigit (urlPat o r) t = false) :
    extract_pr_references t o r = [] := by
  unfold noTriggerDigits at h1
  have hall := bool_not_true h1
  have hh : occursPatDigit [ '#' ] t = false := by
    cases hx : occursPatDigit [ '#' ] t with
    | false => rfl
    | true => rw [hx] at hall; simp at hall
  have e1 : hashScan t = [] := hashScanAux_nil_of_no_hash hh
  have e2 : urlScan o r t = [] := urlScanAux_nil_of_no_occurs h2
  have e3 : closingScan t = [] := closingScanAux_nil_of_no_hash hh
  unfold extract_pr_references
  rw [e1, e2, e3]
  rfl

theorem C3_amended_witness :
    noTriggerDigits (("hello world").toList) = true ∧
    occursPatDigit (urlPat (("o").toList) (("r").toList)) (("hello world").toList) = false ∧
    extract_pr_references (("hello world").toList) (("o").toList) (("r").toList) = [] := by
  refine ⟨by decide, by decide, ?_⟩
  exact C3_amended_no_refs _ _ _ (by decide) (by decide)

/-- C9: every reference captured by the closing-keyword pattern is also
captured by the hashtag pattern, so the extraction returns the same set
of numbers as the hashtag and full-URL patterns alone. -/
theorem C9_closing_subset_hashtag :
    (∀ (t : List Char) (n : Nat),
      n ∈ (closingScan t).map digitsVal → n ∈ (hashScan t).map digitsVal) ∧
    (∀ (t o r : List Char) (n : Nat),
      n ∈ extract_pr_references t o r ↔
        n ∈ (hashScan t).map digitsVal ++ (urlScan o r t).map digitsVal) := by
  have hsub : ∀ (t d : List Char), d ∈ closingScan t → d ∈ hashScan t := by
    intro t d hd
    obtain ⟨b, hs, hdne, hdig, hb⟩ := closingScan_sound_aux t.length t le_rfl d hd
    exact hashScan_complete_aux t.length t le_rfl d b hs hdne hdig hb
  constructor
  · intro t n hn
    obtain ⟨d, hd, rfl⟩ := List.mem_map.mp hn
    exact List.mem_map.mpr ⟨d, hsub t d hd, rfl⟩
  · intro t o r n
    unfold extract_pr_references
    rw [List.mem_dedup, List.mem_append, List.mem_append]
    constructor
    · rintro ((h | h) | h)
      · exact Or.inl h
      · exact Or.inr h
      · obtain ⟨d, hd, rfl⟩ := List.mem_map.mp h
        exact Or.inl (List.mem_map.mpr ⟨d, hsub t d hd, rfl⟩)
    · intro h
      exact Or.inl h

theorem C9_witness :
    5 ∈ (closingScan (("fixes #5").toList)).map digitsVal ∧
    5 ∈ (hashScan (("fixes #5").toList)).map digitsVal := by
  refine ⟨by decide, ?_⟩
  exact C9_closing_subset_hashtag.1 (("fixes #5").toList) 5 (by decide)

/-! ### The pagination loop and error propagation -/

/-- The pagination loop, started at page p with fuel one more than the
number of non-stopping pages, terminates exactly at the first stopping
page and returns the concatenation of the pages before it. -/
theorem comments_loop_eq {α : Type} (pages : Nat → HttpResp (List α)) :
    ∀ (k p : Nat), (∀ i, i < k → pageStops (pages (p + i)) = false) →
      pageStops (pages (p + k)) = true →
      get_issue_comments pages (k + 1) p =
        some ((List.range' p k).flatMap (fun q => (pages q).data)) := by
  intro k
  induction k with
  | zero =>
    intro p _ hstop
    rw [pageStops, Bool.or_eq_true] at hstop
    simp only [Nat.add_zero] at hstop
    rw [show get_issue_comments pages (0 + 1) p =
        (if (pages p).status ≠ 200 then some []
         else if (pages p).data.isEmpty then some []
         else (get_issue_comments pages 0 (p + 1)).map
           (fun rest => (pages p).data ++ rest)) from rfl]
    rcases hstop with hs | hs
    · rw [if_pos (bne_iff_ne.mp hs)]
      simp
    · by_cases h2 : (pages p).status = 200
      · rw [if_neg (by simp [h2]), if_pos hs]
        simp
      · rw [if_pos h2]
        simp
  | succ k ih =>
    intro p hrun hstop
    have hp0 : pageStops (pages p) = false := hrun 0 (Nat.succ_pos k)
    rw [pageStops, Bool.or_eq_false_iff] at hp0
    have hst : (pages p).status = 200 := bne_eq_false_iff_eq.mp hp0.1
    have hne : (pages p).data.isEmpty = false := hp0.2
    rw [show get_issue_comments pages (k + 1 + 1) p =
        (if (pages p).status ≠ 200 then some []
         else if (pages p).data.isEmpty then some []
         else (get_issue_comments pages (k + 1) (p + 1)).map
           (fun rest => (pages p).data ++ rest)) from rfl]
    rw [if_neg (by simp [hst]), if_neg (by simp [hne])]
    have hrun2 : ∀ i, i < k → pageStops (pages (p + 1 + i)) = false := by
      intro i hi
      have := hrun (i + 1) (Nat.succ_lt_succ hi)
      simpa [Nat.add_comm, Nat.add_assoc, Nat.add_left_comm] using this
    have hstop2 : pageStops (pages (p + 1 + k)) = true := by
      simpa [Nat.add_comm, Nat.add_assoc, Nat.add_left_comm] using hstop
    rw [ih (p + 1) hrun2 hstop2]
    show some ((pages p).data ++
        (List.range' (p + 1) k).flatMap (fun q => (pages q).data)) =
      some ((List.range' p (k + 1)).flatMap (fun q => (pages q).data))
    rw [List.range'_succ, List.flatMap_cons]

/-- An absent candidate (get_pr returned the empty falsy record) is
skipped by the selection loop: the run continues over the remaining
candidates with unchanged state. -/
theorem selLoop_absent_skip {n : Nat} {fetch : Nat → Option PR} {c : Nat}
    (hc : fetch c = none) :
    ∀ (pre post : List Nat) (acc : Option PR),
      selLoop n fetch acc (pre ++ c :: post) = selLoop n fetch acc (pre ++ post) := by
  intro pre
  induction pre with
  | nil =>
    intro post acc
    simp only [List.nil_append, selLoop, hc]
  | cons p pre ih =>
    intro post acc
    simp only [List.cons_append, selLoop]
    cases hfp : fetch p with
    | none => exact ih post acc
    | some pr =>
      cases hA : prAlive pr with
      | false =>
        simp only [hA, Bool.false_eq_true, if_false]
        exact ih post acc
      | true =>
        cases hE : eligibleBody n (prText pr) with
        | false =>
          simp only [hA, hE, if_true, Bool.false_eq_true, if_false]
          exact ih post acc
        | true =>
          cases hS : strongBody n (prText pr) with
          | true => simp only [hA, hE, hS, if_true]
          | false =>
            simp only [hA, hE, hS, if_true, Bool.false_eq_true, if_false]
            cases acc with
            | none => exact ih post (some pr)
            | some a => exact ih post (some a)

/-- C8: comment pagination terminates exactly at the first page that
fails (non-200) or yields zero items, returning the concatenation of
the pages before it, with no error value in sight; the fuel needed is
one more than the number of preceding pages, witnessing termination of
the while loop under the precondition that some page stops it. -/
theorem C8_pagination_terminates {α : Type} (pages : Nat → HttpResp (List α))
    (k : Nat) (hrun : ∀ i, i < k → pageStops (pages (1 + i)) = false)
    (hstop : pageStops (pages (1 + k)) = true) :
    get_issue_comments pages (k + 1) 1 =
      some ((List.range' 1 k).flatMap (fun q => (pages q).data)) :=
  comments_loop_eq pages k 1 hrun hstop

/-- The pages of the witness pagination run: one full page, then an
empty one. -/
def exPages : Nat → HttpResp (List Nat) :=
  fun p => if p = 1 then ⟨200, [7, 8]⟩ else ⟨200, []⟩

theorem C8_witness :
    (∀ i, i < 1 → pageStops (exPages (1 + i)) = false) ∧
    pageStops (exPages (1 + 1)) = true ∧
    get_issue_comments exPages 2 1 = some [7, 8] := by
  refine ⟨?_, by decide, ?_⟩
  · intro i hi
    obtain rfl := Nat.lt_one_iff.mp hi
    decide
  · have h := C8_pagination_terminates exPages 1
      (by intro i hi; obtain rfl := Nat.lt_one_iff.mp hi; decide) (by decide)
    simpa using h

/-- C5: only the primary issue fetch raises (it errors exactly on
non-200 responses, 404 included); the downstream fetches absorb
failures locally — a non-200 events response yields the empty list, a
non-200 PR response yields the absent record, a failed comments page
stops pagination and returns what was collected, and an absent
candidate is skipped while the remaining candidates are still
processed. -/
theorem C5_error_absorption :
    (∀ (n : Int) (resp : HttpResp Issue),
      (∃ e, get_issue n resp = Except.error e) ↔ resp.status ≠ 200) ∧
    (∀ (α : Type) (resp : HttpResp (List α)),
      resp.status ≠ 200 → get_issue_events resp = []) ∧
    (∀ resp : HttpResp PR, resp.status ≠ 200 → get_pr resp = none) ∧
    (∀ (α : Type) (pages : Nat → HttpResp (List α)) (k : Nat),
      (∀ i, i < k → pageStops (pages (1 + i)) = false) →
      (pages (1 + k)).status ≠ 200 →
      get_issue_comments pages (k + 1) 1 =
        some ((List.range' 1 k).flatMap (fun q => (pages q).data))) ∧
    (∀ (n : Nat) (fetch : Nat → Option PR) (pre post : List Nat) (c : Nat),
      fetch c = none →
      select_best n fetch (pre ++ c :: post) = select_best n fetch (pre ++ post)) := by
  refine ⟨?_, ?_, ?_, ?_, ?_⟩
  · intro n resp
    unfold get_issue
    by_cases h4 : resp.status = 404
    · rw [if_pos h4]
      constructor
      · intro _
        rw [h4]
        decide
      · intro _
        exact ⟨GHError.notFound n, rfl⟩
    · rw [if_neg h4]
      by_cases h2 : resp.status = 200
      · rw [if_neg (by simp [h2])]
        constructor
        · rintro ⟨e, he⟩
          exact absurd he (by simp)
        · intro hne
          exact absurd h2 hne
      · rw [if_pos h2]
        exact ⟨fun _ => h2, fun _ => ⟨GHError.apiFailed resp.status, rfl⟩⟩
  · intro α resp h
    unfold get_issue_events
    rw [if_neg h]
  · intro resp h
    unfold get_pr
    rw [if_neg h]
  · intro α pages k hrun hfail
    refine comments_loop_eq pages k 1 hrun ?_
    rw [pageStops, Bool.or_eq_true]
    exact Or.inl (bne_iff_ne.mpr hfail)
  · intro n fetch pre post c hc
    exact selLoop_absent_skip hc pre post none

/-- A pagination environment whose first page already fails. -/
def exPagesFail : Nat → HttpResp (List Nat) :=
  fun _ => ⟨500, [9]⟩

theorem C5_witness :
    (∃ e, get_issue 42 (HttpResp.mk 500 (Issue.mk (("open").toList) none)) =
      Except.error e) ∧
    get_issue_events (HttpResp.mk 503 ([3, 4] : List Nat)) = [] ∧
    get_pr (HttpResp.mk 404 prStrong) = none ∧
    get_issue_comments exPagesFail 1 1 = some [] ∧
    select_best 42 exFetch [5, 99] = select_best 42 exFetch [99] := by
  refine ⟨?_, ?_, ?_, ?_, ?_⟩
  · exact (C5_error_absorption.1 42 (HttpResp.mk 500 (Issue.mk (("open").toList) none))).mpr
      (by decide)
  · exact C5_error_absorption.2.1 Nat (HttpResp.mk 503 [3, 4]) (by decide)
  · exact C5_error_absorption.2.2.1 (HttpResp.mk 404 prStrong) (by decide)
  · have h := C5_error_absorption.2.2.2.1 Nat exPagesFail 0
      (by intro i hi; exact absurd hi (Nat.not_lt_zero i)) (by decide)
    simpa using h
  · exact C5_error_absorption.2.2.2.2 42 exFetch [] [99] 5 (by decide)

/-! ### C4 and C6 -/

/-- A placeholder issue payload for responses whose status is not 200
(the payload is never consulted in that case). -/
def issueDummy : Issue :=
  ⟨("open").toList, none⟩

/-- C4 counterexample: with a parseable identifier and a failing
primary issue fetch, the report routine catches the error (and prints
it), and main still returns exit code 0 — not 1 as the claim states
for a fatal-fetch error. -/
theorem C4_counterexample :
    parse_github_url (("octo/repo#42").toList) =
      Except.ok ((("octo").toList, ("repo").toList, (42 : Int))) ∧
    get_issue 42 (HttpResp.mk 500 issueDummy) =
      Except.error (GHError.apiFailed 500) ∧
    print_issue_and_solution 42 (HttpResp.mk 500 issueDummy) none =
      ReportOutcome.errorReport (GHError.apiFailed 500) ∧
    main_run (("octo/repo#42").toList) (HttpResp.mk 500 issueDummy) none = 0 := by
  refine ⟨by decide, by decide, by decide, by decide⟩

/-- C4 amended: the program exits 0 on every completion whose
identifier parses — including runs that find no solution and runs whose
primary issue fetch fails, since print_issue_and_solution catches every
exception — and exits 1 exactly when the identifier fails to parse. -/
theorem C4_amended_exit_codes :
    (∀ (ident : List Char) (resp : HttpResp Issue) (search : Option PR),
      (∃ v, parse_github_url ident = Except.ok v) →
      main_run ident resp search = 0) ∧
    (∀ (ident : List Char) (resp : HttpResp Issue) (search : Option PR),
      parse_github_url ident = Except.error () →
      main_run ident resp search = 1) := by
  constructor
  · rintro ident resp search ⟨v, hv⟩
    unfold main_run
    rw [hv]
  · intro ident resp search h
    unfold main_run
    rw [h]

theorem C4_amended_witness :
    main_run (("octo/repo#42").toList) (HttpResp.mk 500 issueDummy) none = 0 ∧
    main_run (("octo/repo#42").toList) (HttpResp.mk 200 issueDummy) none = 0 ∧
    main_run (("octo/repo").toList) (HttpResp.mk 200 issueDummy) none = 1 := by
  refine ⟨?_, ?_, ?_⟩
  · exact C4_amended_exit_codes.1 _ _ _
      ⟨((("octo").toList, ("repo").toList, (42 : Int))), by decide⟩
  · exact C4_amended_exit_codes.1 _ _ _
      ⟨((("octo").toList, ("repo").toList, (42 : Int))), by decide⟩
  · exact C4_amended_exit_codes.2 _ _ _ (by decide)

/-- C6 counterexample: an identifier of neither accepted shape — a full
URL with an extra path segment after the issue number — is nonetheless
accepted, yielding the tuple of the first four path segments. -/
theorem C6_counterexample :
    parse_github_url (("https://github.com/octo/repo/issues/42/comments").toList) =
      Except.ok ((("octo").toList, ("repo").toList, (42 : Int))) := by
  decide

/-- C6 amended: the two documented identifier shapes parse to the
expected triples, and every identifier that neither starts with http
nor contains a hash sign — in particular octo/repo — is rejected with a
format error before any network call; but not every other-shaped
identifier is rejected (a URL with trailing path segments after the
issue number is accepted). -/
theorem C6_amended_parse :
    parse_github_url (("octo/repo#42").toList) =
      Except.ok ((("octo").toList, ("repo").toList, (42 : Int))) ∧
    parse_github_url (("https://github.com/octo/repo/issues/42").toList) =
      Except.ok ((("octo").toList, ("repo").toList, (42 : Int))) ∧
    parse_github_url (("octo/repo").toList) = Except.error () ∧
    (∀ u : List Char, ("http").toList.isPrefixOf u = false →
      u.contains '#' = false → parse_github_url u = Except.error ()) := by
  refine ⟨by decide, by decide, by decide, ?_⟩
  intro u h1 h2
  unfold parse_github_url
  rw [if_neg (fun hp => by rw [h1] at hp; exact Bool.noConfusion hp),
    if_neg (fun hm => by rw [h2] at hm; exact Bool.noConfusion hm)]

theorem C6_amended_witness :
    parse_github_url (("plain-identifier").toList) = Except.error () :=
  C6_amended_parse.2.2.2 (("plain-identifier").toList) (by decide) (by decide)

end GHX
